import Mathlib

/-!
Verification of the snakeoil argparse extensions (`snakeoil/cli/arghparse.py`)
and the argparse test helpers (`snakeoil/test/argparse_helpers.py`).

The Python code is shallowly embedded: namespaces become association lists from
attribute names to values, argparse actions become pure functions, exceptions
become `Except` / explicit outcome types, and `sys.exit` driven error reporting
becomes an `exited` outcome carrying the status and message.
-/

namespace Snakeoil

/-- Python single-quote character, used when embedding `%r`-formatted
error messages. -/
def sq : String := "\x27"

/-- Python `str.split(',')` : split a string at every comma, keeping empty
pieces (so `"a,,b"` gives `["a", "", "b"]`). -/
def splitCommaAux : List Char → List Char → List String
  | [], cur => [⟨cur.reverse⟩]
  | c :: cs, cur =>
    if c = ',' then ⟨cur.reverse⟩ :: splitCommaAux cs [] else splitCommaAux cs (c :: cur)

/-- Python `value.split(',')` on a string value. -/
def pySplitComma (s : String) : List String := splitCommaAux s.data []

/-- Python `str.lower()` (character-wise lowering). -/
def pyLower (s : String) : String := ⟨s.data.map Char.toLower⟩

/-- Python `value.startswith(c)` for a one-character pattern, phrased on the
underlying character list. -/
def startsWithChar (c : Char) (s : String) : Bool :=
  match s.data with
  | [] => false
  | a :: _ => a = c

/-- Python `value[1:]` : drop the first character of a string. -/
def pyTail (s : String) : String := ⟨s.data.tail⟩

/-- Argparse action values arrive either as a single string or as a list of
strings; the actions branch on `isinstance(values, str)`. -/
inductive PyStrOrList where
  | str (s : String)
  | list (l : List String)
deriving DecidableEq

/-- The `if isinstance(values, str): values = [values]` normalization used by
`CommaSeparatedNegations.parse_values` and `CommaSeparatedElements.parse_values`. -/
def PyStrOrList.toList : PyStrOrList → List String
  | .str s => [s]
  | .list l => l

/-- The token stream one comma-separated command-line value contributes: the
generator expression `x for x in value.split(',') if x` shared by all of the
comma-list actions. -/
def tokensOf (v : String) : List String :=
  (pySplitComma v).filter (fun x => x ≠ "")

/-- Embeds `CommaSeparatedValues.parse_values`: split every comma-separated
value and drop empty pieces, flattening into one list. -/
def CommaSeparatedValues.parse_values : PyStrOrList → List String
  | .str s => tokensOf s
  | .list l => l.foldl (fun items v => items ++ tokensOf v) []

/-- Modelled from the spec: `snakeoil.sequences.split_negations` is imported by
`arghparse.py` but its source file is not part of the excerpt. Per the spec,
each token is classified by its leading sign: a `"-"`-prefixed token is
disabled (sign stripped), any other token is enabled. -/
def split_negations : List String → List String × List String
  | [] => ([], [])
  | t :: ts =>
    let r := split_negations ts
    if startsWithChar '-' t then (pyTail t :: r.1, r.2) else (r.1, t :: r.2)

/-- Modelled from the spec: `snakeoil.sequences.split_elements` is imported by
`arghparse.py` but its source file is not part of the excerpt. Per the spec,
a `"-"`-prefixed token is disabled, a `"+"`-prefixed token is enabled (signs
stripped), and an unprefixed token is neutral. -/
def split_elements : List String → List String × List String × List String
  | [] => ([], [], [])
  | t :: ts =>
    let r := split_elements ts
    if startsWithChar '-' t then (pyTail t :: r.1, r.2.1, r.2.2)
    else if startsWithChar '+' t then (r.1, r.2.1, pyTail t :: r.2.2)
    else (r.1, t :: r.2.1, r.2.2)

/-- Embeds `CommaSeparatedNegations.parse_values`: normalize to a list of
values, split each into non-empty tokens, classify by sign and extend the
`(disabled, enabled)` accumulator lists. -/
def CommaSeparatedNegations.parse_values (values : PyStrOrList) : List String × List String :=
  values.toList.foldl
    (fun acc v =>
      let r := split_negations (tokensOf v)
      (acc.1 ++ r.1, acc.2 ++ r.2))
    ([], [])

/-- One loop iteration of `CommaSeparatedElements.parse_values`: split a value
into non-empty tokens, classify by sign and extend the
`(disabled, neutral, enabled)` accumulator lists. -/
def CommaSeparatedElements.step (acc : List String × List String × List String)
    (v : String) : List String × List String × List String :=
  let r := split_elements (tokensOf v)
  (acc.1 ++ r.1, acc.2.1 ++ r.2.1, acc.2.2 ++ r.2.2)

/-- Embeds `CommaSeparatedElements.parse_values`: normalize to a list of
values and run the classification loop. -/
def CommaSeparatedElements.parse_values (values : PyStrOrList) :
    List String × List String × List String :=
  values.toList.foldl CommaSeparatedElements.step ([], [], [])

/-- A token with its leading `"-"` or `"+"` sign removed (unsigned tokens are
kept as they are). -/
def stripSign (t : String) : String :=
  if startsWithChar '-' t || startsWithChar '+' t then pyTail t else t

/-- The full multiset of non-empty tokens contributed by an input to a
comma-list action. -/
def allTokens (values : PyStrOrList) : List String :=
  values.toList.flatMap tokensOf

/-- Embeds `StoreBool.boolean`: lower the token, map the yes-literals to true
and the no-literals to false, and reject anything else with a `ValueError`
naming the allowed literal set. -/
def StoreBool.boolean (value : String) : Except String Bool :=
  let v := pyLower value
  if v ∈ ["y", "yes", "true"] then .ok true
  else if v ∈ ["n", "no", "false"] then .ok false
  else .error ("value " ++ sq ++ v ++ sq ++ " must be [y|yes|true|n|no|false]")

/-- The opaque style markers of `argparse_helpers`: `Color`, `Reset` and `Bold`
instances of `FormatterObject`, represented as plain immutable values. -/
inductive FormatterObject where
  | color (mode : String) (colorName : String)
  | reset
  | bold
deriving DecidableEq

/-- An entry of a `ListStream`: either a raw text chunk (Python `bytes`) or an
opaque `FormatterObject` style marker. -/
inductive StreamItem where
  | bytes (s : String)
  | obj (o : FormatterObject)
deriving DecidableEq

/-- The objectlist construction inside `ListStream.write`: consecutive text
arguments are joined into a single chunk, each marker flushes the pending
chunk (possibly empty) before being appended, and the final pending chunk
(possibly empty) is appended at the end. -/
def ListStream.buildObjectList : List StreamItem → String → List StreamItem
  | [], acc => [.bytes acc]
  | .bytes s :: rest, acc => ListStream.buildObjectList rest (acc ++ s)
  | .obj o :: rest, acc => .bytes acc :: .obj o :: ListStream.buildObjectList rest ""

/-- Embeds `ListStream.write`: build the objectlist from the arguments and,
when both the stream's last entry and the objectlist's first entry are text,
merge them (coalescing adjacent text chunks) before extending the stream. -/
def ListStream.write (self : List StreamItem) (args : List StreamItem) : List StreamItem :=
  let objectlist := ListStream.buildObjectList args ""
  match self.getLast?, objectlist with
  | some (.bytes t), .bytes u :: restObj => self.dropLast ++ .bytes (t ++ u) :: restObj
  | _, _ => self ++ objectlist

/-- Embeds `FakeStreamFormatter.get_text_stream`: concatenate only the raw
text chunks, excluding every `FormatterObject` marker. -/
def FakeStreamFormatter.get_text_stream (stream : List StreamItem) : String :=
  String.join (stream.filterMap fun x =>
    match x with
    | .bytes s => some s
    | .obj _ => none)

/-- A value held by a parse-result namespace attribute: a plain (concrete)
value with payload type `α`, a `DelayedDefault` carrying the target attributes
its wipe deletes, or a generic `DelayedValue` whose invokable is referenced by
an index into an invokable environment. Both delayed forms carry the integer
priority. -/
inductive Val (α : Type) where
  | plain (a : α)
  | delayedDefault (targets : List String) (priority : Int)
  | delayed (invokable : Nat) (priority : Int)
deriving DecidableEq

/-- A parse-result namespace (`args.__dict__`): attribute names mapped to
values, kept in insertion order. -/
abbrev Ns (α : Type) := List (String × Val α)

/-- Python `isinstance(val, DelayedDefault)`. -/
def Val.isDelayedDefault {α : Type} : Val α → Bool
  | .delayedDefault _ _ => true
  | _ => false

/-- Python `isinstance(val, DelayedValue)`; `DelayedDefault` is a subclass of
`DelayedValue`, so both delayed forms qualify. -/
def Val.isDelayedValue {α : Type} : Val α → Bool
  | .plain _ => false
  | _ => true

/-- The `priority` attribute used as the sort key (plain values are never
collected, so their key is irrelevant). -/
def Val.priorityOf {α : Type} : Val α → Int
  | .plain _ => 0
  | .delayedDefault _ p => p
  | .delayed _ p => p

/-- Python exceptions relevant to the resolution protocol. -/
inductive PyErr where
  | typeError (msg : String)
  | valueError (msg : String)
  | argumentError (msg : String)
deriving DecidableEq

/-- The observable result of the resolution protocol: a populated namespace,
an in-process exception propagated to the caller, or process termination
through the parser's error-reporting path. -/
inductive Outcome (α : Type) where
  | ok (ns : Ns α)
  | raised (e : PyErr)
  | exited (status : Nat) (msg : String)
deriving DecidableEq

/-- Python `delattr(namespace, attr)`, ignoring a missing attribute the way
the try/except AttributeError wrappers in `DelayedDefault._wipe` do. -/
def eraseAttr {α : Type} (attr : String) (ns : Ns α) : Ns α :=
  ns.filter (fun p => p.1 ≠ attr)

/-- Embeds `DelayedDefault._wipe`: delete every target attribute, then the
triggering attribute itself. -/
def DelayedDefault.wipe {α : Type} (targets : List String) (triggering : String)
    (ns : Ns α) : Ns α :=
  eraseAttr triggering (targets.foldl (fun n t => eraseAttr t n) ns)

/-- Insert an entry into a priority-sorted list after every entry of priority
at most its own - the stable placement Python's `sorted` produces. -/
def insertByPriority {α : Type} (x : String × Val α) :
    List (String × Val α) → List (String × Val α)
  | [] => [x]
  | y :: ys =>
    if y.2.priorityOf ≤ x.2.priorityOf then y :: insertByPriority x ys
    else x :: y :: ys

/-- Embeds `sorted(..., key=lambda val: val[1].priority)`: a stable sort of
collected attributes by ascending priority. -/
def sortByPriority {α : Type} (l : List (String × Val α)) : List (String × Val α) :=
  l.foldl (fun acc x => insertByPriority x acc) []

/-- The pass-1 collection: attributes whose value is a `DelayedDefault`, in
namespace insertion order. -/
def collectDelayedDefaults {α : Type} (ns : Ns α) : List (String × Val α) :=
  ns.filter (fun p => p.2.isDelayedDefault)

/-- One pass-1 invocation: a collected `DelayedDefault` runs its wipe on the
namespace. -/
def runWipe {α : Type} (n : Ns α) (p : String × Val α) : Ns α :=
  match p.2 with
  | .delayedDefault ts _ => DelayedDefault.wipe ts p.1 n
  | _ => n

/-- Pass 1 of `ArgumentParser.parse_args`: collect every `DelayedDefault`
attribute, sort by ascending priority, and run each wipe in order. -/
def pass1 {α : Type} (ns : Ns α) : Ns α :=
  (sortByPriority (collectDelayedDefaults ns)).foldl runWipe ns

/-- An invokable environment: interprets the invokable index of a generic
`DelayedValue` as its effect `invokable(namespace, attr)`, which may mutate
the namespace arbitrarily or raise. -/
abbrev EnvT (α : Type) := Nat → Ns α → String → Except PyErr (Ns α)

/-- Invoking one collected delayed value, `delayed(args, attr)`: a
`DelayedDefault` runs its wipe; a generic `DelayedValue` runs its invokable. -/
def invokeDelayed {α : Type} (env : EnvT α) (attr : String) (v : Val α)
    (ns : Ns α) : Except PyErr (Ns α) :=
  match v with
  | .plain _ => .ok ns
  | .delayedDefault ts _ => .ok (DelayedDefault.wipe ts attr ns)
  | .delayed i _ => env i ns attr

/-- The pass-2 collection in its invocation order: attributes whose value is
any `DelayedValue`, sorted by ascending priority (stable in namespace
insertion order). -/
def pass2order {α : Type} (ns : Ns α) : List (String × Val α) :=
  sortByPriority (ns.filter (fun p => p.2.isDelayedValue))

/-- The exception handling of the pass-2 loop in `parse_args`: a TypeError or
ValueError raised by an invocation is re-raised as a descriptive TypeError
naming the offending attribute `attr`; an `argparse.ArgumentError` is
funneled into `self.error`, which prints `prog: error: msg` and exits the
process with status 2. -/
def failureOutcome {α : Type} (attr prog : String) : PyErr → Outcome α
  | .typeError m =>
      .raised (.typeError ("failed loading/parsing " ++ sq ++ attr ++ sq ++ ": " ++ m))
  | .valueError m =>
      .raised (.typeError ("failed loading/parsing " ++ sq ++ attr ++ sq ++ ": " ++ m))
  | .argumentError m => .exited 2 (prog ++ ": error: " ++ m ++ "\n")

/-- The pass-2 loop of `parse_args`: invoke each collected delayed value in
list order, handling a raised exception as `failureOutcome` describes. -/
def runDelayeds {α : Type} (env : EnvT α) (prog : String) :
    List (String × Val α) → Ns α → Outcome α
  | [], ns => .ok ns
  | (attr, v) :: rest, ns =>
    match invokeDelayed env attr v ns with
    | .ok ns2 => runDelayeds env prog rest ns2
    | .error e => failureOutcome attr prog e

/-- Pass 2 of `ArgumentParser.parse_args`: run every collected delayed value
in ascending priority order. -/
def pass2 {α : Type} (env : EnvT α) (prog : String) (ns : Ns α) : Outcome α :=
  runDelayeds env prog (pass2order ns) ns

/-- Python `getattr`-style lookup of an attribute value. -/
def lookupAttr {α : Type} (attr : String) (ns : Ns α) : Option (Val α) :=
  (ns.find? (fun p => p.1 = attr)).map (fun p => p.2)

/-- The final-validation step of `parse_args`: read `final_check` (the
`Namespace.__getattribute__` override collapses a delayed value by invoking
it and re-reading, and a wiped or missing attribute reads as the `None`
default), delete it and invoke it on the result. `fenv` interprets a stored
checker payload as its effect on the result object. If the collapse still
leaves a delayed value object, the source calls it with the parser in the
namespace slot, so its effect falls outside the result object modelled
here. -/
def finalCheckStep {α : Type} (env : EnvT α) (fenv : α → Ns α → Ns α)
    (ns : Ns α) : Outcome α :=
  match lookupAttr "final_check" ns with
  | none => .ok ns
  | some (.plain f) => .ok (fenv f (eraseAttr "final_check" ns))
  | some (.delayedDefault ts _) => .ok (DelayedDefault.wipe ts "final_check" ns)
  | some (.delayed i _) =>
    match env i ns "final_check" with
    | .error e => .raised e
    | .ok ns2 =>
      match lookupAttr "final_check" ns2 with
      | none => .ok ns2
      | some (.plain f) => .ok (fenv f (eraseAttr "final_check" ns2))
      | some _ => .ok (eraseAttr "final_check" ns2)

/-- The delayed-value resolution protocol at the end of
`ArgumentParser.parse_args`: pass 1 wipes delayed defaults, pass 2 resolves
the remaining delayed values in ascending priority order, then the
final-validation step runs on the resolved result. -/
def parse_args_resolve {α : Type} (env : EnvT α) (fenv : α → Ns α → Ns α)
    (prog : String) (ns : Ns α) : Outcome α :=
  match pass2 env prog (pass1 ns) with
  | .ok ns2 => finalCheckStep env fenv ns2
  | r => r

/-- A successful run of the leading invocations of the pass-2 loop: `some`
holds the namespace after every listed invocation succeeded, `none` marks
that one of them raised. -/
def runAllOk {α : Type} (env : EnvT α) : List (String × Val α) → Ns α → Option (Ns α)
  | [], ns => some ns
  | (attr, v) :: rest, ns =>
    match invokeDelayed env attr v ns with
    | .ok ns2 => runAllOk env rest ns2
    | .error _ => none

/-- The attribute named `b` currently holds an (unresolved) delayed value in
`ns`. -/
def hasDelayedAttr {α : Type} (ns : Ns α) (b : String) : Prop :=
  ∃ w, (b, w) ∈ ns ∧ w.isDelayedValue = true

/-- The delayed-value lifecycle contract for invokables: a successful
invocation `invokable(namespace, attr)` resolves its own attribute (stores a
concrete value or deletes it) and introduces no new delayed values. -/
def ConformingEnv {α : Type} (env : EnvT α) : Prop :=
  ∀ i ns attr ns2, env i ns attr = .ok ns2 →
    ∀ b, hasDelayedAttr ns2 b → hasDelayedAttr ns b ∧ b ≠ attr

/-- The lifecycle contract for the final-check callback: it introduces no new
delayed values on the result object. -/
def ConformingCheck {α : Type} (fenv : α → Ns α → Ns α) : Prop :=
  ∀ f ns b, hasDelayedAttr (fenv f ns) b → hasDelayedAttr ns b

/-- The skip condition guarding the default-subparser fallback in
`ArgumentParser._parse_known_args`: no default requested, help requested, or
the first token already names a known subparser. -/
def skipSubparserFallback (defaultSub : Option String) (subs : List String)
    (args : List String) : Bool :=
  defaultSub.isNone || args.contains "-h" || args.contains "--help" ||
    (match args with
     | [] => false
     | a :: _ => subs.contains a)

/-- The parent-parser-only parsing loop of `_parse_known_args`: each parent
parses the options it knows about, threading the namespace and the remaining
argument strings. -/
def foldParents {Ns : Type} (parents : List (List String → Ns → Ns × List String))
    (ns : Ns) (args : List String) : Ns × List String :=
  parents.foldl (fun acc par => par acc.2 acc.1) (ns, args)

/-- Lexicographically insert a name, embedding Python `sorted` on strings
together with `sortNames`. -/
def insertName (x : String) : List String → List String
  | [] => [x]
  | y :: ys => if y ≤ x then y :: insertName x ys else x :: y :: ys

/-- Python `sorted(...)` on subcommand names. -/
def sortNames (l : List String) : List String :=
  l.foldl (fun acc x => insertName x acc) []

/-- Python `', '.join(...)`. -/
def joinCommaSpace : List String → String
  | [] => ""
  | [x] => x
  | x :: xs => x ++ ", " ++ joinCommaSpace xs

/-- The `ValueError` message raised by `_parse_known_args` for an unknown
default subparser. -/
def unknownSubparserMsg (d : String) (subs : List String) : String :=
  "unknown subparser " ++ sq ++ d ++ sq ++ " (available subparsers " ++
    joinCommaSpace (sortNames subs) ++ ")"

/-- Embeds `ArgumentParser._parse_known_args`: unless the fallback is
skipped, validate the configured default subcommand (raising `ValueError` on
an unknown one), run parent-parser-only parsing, and prepend the default
subcommand name before handing the argument list to the standard library's
parser `stdlibParse`. The `none` case of the inner match is unreachable:
`skipSubparserFallback` holds whenever no default is requested. -/
def ArgumentParser.parse_known_args {Ns : Type}
    (defaultSub : Option String) (subs : List String)
    (parents : List (List String → Ns → Ns × List String))
    (stdlibParse : List String → Ns → Ns × List String)
    (args : List String) (ns : Ns) : Except String (Ns × List String) :=
  if skipSubparserFallback defaultSub subs args then .ok (stdlibParse args ns)
  else
    match defaultSub with
    | none => .ok (stdlibParse args ns)
    | some d =>
      if subs.contains d then
        let r := foldParents parents ns args
        .ok (stdlibParse (d :: r.2) r.1)
      else .error (unknownSubparserMsg d subs)

/-- The subcommand-relevant parser state written by `add_subparsers`. -/
structure SubparserConfig where
  defaultSubparser : Option String
  hasSubparsers : Bool
deriving DecidableEq

/-- Embeds `ArgumentParser.add_subparsers`: store the requested default
subcommand name and create (or keep) the subparsers object. The source
performs no validation of `default` at this point and has no raising path,
hence the result is always `ok`. -/
def ArgumentParser.add_subparsers (_p : SubparserConfig) (default : Option String) :
    Except String SubparserConfig :=
  .ok { defaultSubparser := default, hasSubparsers := true }

end Snakeoil

namespace Snakeoil

/-! ### Comma-list splitter properties -/

lemma split_elements_concat_perm (ts : List String) :
    ((split_elements ts).1 ++ (split_elements ts).2.1 ++ (split_elements ts).2.2).Perm
      (ts.map stripSign) := by
  induction ts with
  | nil => simp [split_elements]
  | cons t ts ih =>
    by_cases hd : startsWithChar '-' t
    · have hs : stripSign t = pyTail t := by simp [stripSign, hd]
      simp only [split_elements, hd, if_true, List.map_cons, hs]
      exact List.Perm.cons _ ih
    · by_cases hp : startsWithChar '+' t
      · have hs : stripSign t = pyTail t := by simp [stripSign, hp]
        simp only [split_elements, hd, hp, if_false, if_true, List.map_cons, hs]
        refine List.Perm.trans List.perm_middle ?_
        exact List.Perm.cons _ ih
      · have hs : stripSign t = t := by simp [stripSign, hd, hp]
        simp only [split_elements, hd, hp, if_false, List.map_cons, hs]
        refine List.Perm.trans (List.Perm.append_right _ List.perm_middle) ?_
        exact List.Perm.cons _ ih

lemma append_shuffle {α : Type} (A B C n m p : List α) :
    ((A ++ n) ++ (B ++ m) ++ (C ++ p)).Perm ((A ++ B ++ C) ++ (n ++ m ++ p)) := by
  rw [← Multiset.coe_eq_coe]
  simp only [← Multiset.coe_add]
  abel

lemma elements_fold_perm (vs : List String)
    (acc : List String × List String × List String) :
    (((vs.foldl CommaSeparatedElements.step acc).1 ++
      (vs.foldl CommaSeparatedElements.step acc).2.1 ++
      (vs.foldl CommaSeparatedElements.step acc).2.2)).Perm
      ((acc.1 ++ acc.2.1 ++ acc.2.2) ++ (vs.flatMap tokensOf).map stripSign) := by
  induction vs generalizing acc with
  | nil => simp
  | cons v vs ih =>
    simp only [List.foldl_cons, List.flatMap_cons, List.map_append]
    refine List.Perm.trans (ih (CommaSeparatedElements.step acc v)) ?_
    simp only [CommaSeparatedElements.step]
    refine List.Perm.trans (List.Perm.append_right _ (append_shuffle _ _ _ _ _ _)) ?_
    rw [List.append_assoc]
    refine List.Perm.append_left _ ?_
    exact List.Perm.append_right _ (split_elements_concat_perm (tokensOf v))

/-- C6: for every input to `CommaSeparatedElements.parse_values`, concatenating
the disabled, neutral and enabled output lists (order preserved within each
category) is a permutation of - i.e. reconstructs the multiset of - the input
tokens with their leading "-" and "+" sign removed; in particular every token
lands in exactly one of the three lists. -/
theorem elements_partition_reconstructs (values : PyStrOrList) :
    (((CommaSeparatedElements.parse_values values).1 ++
      (CommaSeparatedElements.parse_values values).2.1 ++
      (CommaSeparatedElements.parse_values values).2.2)).Perm
      ((allTokens values).map stripSign) := by
  have h := elements_fold_perm values.toList ([], [], [])
  simpa [CommaSeparatedElements.parse_values, allTokens] using h

/-- C7: `StoreBool.boolean` maps exactly the case-insensitive tokens y, yes,
true to true and n, no, false to false, and rejects any other token with a
`ValueError` whose message names the allowed literal set. -/
theorem StoreBool_boolean_exact (s : String) :
    (StoreBool.boolean s = .ok true ↔ pyLower s ∈ ["y", "yes", "true"]) ∧
    (StoreBool.boolean s = .ok false ↔ pyLower s ∈ ["n", "no", "false"]) ∧
    (pyLower s ∉ ["y", "yes", "true", "n", "no", "false"] →
      StoreBool.boolean s =
        .error ("value " ++ sq ++ pyLower s ++ sq ++ " must be [y|yes|true|n|no|false]")) := by
  simp only [StoreBool.boolean]
  generalize pyLower s = v
  split_ifs with h1 h2
  · have hv : v = "y" ∨ v = "yes" ∨ v = "true" := by simpa using h1
    have hno : v ∉ ["n", "no", "false"] := by
      rcases hv with rfl | rfl | rfl <;> decide
    have hall : v ∈ ["y", "yes", "true", "n", "no", "false"] := by
      rcases hv with rfl | rfl | rfl <;> decide
    refine ⟨by simp [h1], by simp [hno], fun h => absurd hall h⟩
  · have hv : v = "n" ∨ v = "no" ∨ v = "false" := by simpa using h2
    have hall : v ∈ ["y", "yes", "true", "n", "no", "false"] := by
      rcases hv with rfl | rfl | rfl <;> decide
    refine ⟨by simp [h1], by simp [h2], fun h => absurd hall h⟩
  · have hall : v ∉ ["y", "yes", "true", "n", "no", "false"] := by
      simp only [List.mem_cons, List.mem_singleton] at h1 h2 ⊢
      tauto
    refine ⟨by simp [h1], by simp [h2], fun _ => rfl⟩

/-- Witness for C7: parsing "yes" yields true and parsing "bogus" is rejected
with the message naming the allowed literal set. -/
theorem StoreBool_boolean_exact_witness :
    StoreBool.boolean "yes" = .ok true ∧
    StoreBool.boolean "bogus" =
      .error ("value " ++ sq ++ "bogus" ++ sq ++ " must be [y|yes|true|n|no|false]") := by
  constructor
  · exact (StoreBool_boolean_exact "yes").1.mpr (by decide)
  · have h := (StoreBool_boolean_exact "bogus").2.2 (by decide)
    simpa using h

/-- C10: every comma-list action drops empty tokens produced by splitting: the
token stream of any value never contains the empty string, and leading,
trailing or consecutive commas contribute nothing, for all three action
variants. -/
theorem comma_list_drops_empty_tokens :
    (∀ v t, t ∈ tokensOf v → t ≠ "") ∧
    CommaSeparatedValues.parse_values (.str "a,,b") = ["a", "b"] ∧
    CommaSeparatedValues.parse_values (.str ",a,") = ["a"] ∧
    CommaSeparatedNegations.parse_values (.str "a,,b") = ([], ["a", "b"]) ∧
    CommaSeparatedElements.parse_values (.str ",a,") = ([], ["a"], []) := by
  refine ⟨?_, by decide, by decide, by decide, by decide⟩
  intro v t ht
  have h := List.mem_filter.mp ht
  simpa using h.2

/-- Witness for C10: the token "a" survives the split of "a,,b" and is
non-empty. -/
theorem comma_list_drops_empty_tokens_witness : ("a" : String) ≠ "" :=
  comma_list_drops_empty_tokens.1 "a,,b" "a" (by decide)

end Snakeoil

namespace Snakeoil

/-! ### Test double formatter -/

/-- C9: writing the sequence [text "a", marker BOLD, text "b"] to a fresh
`ListStream` leaves the raw stream holding the marker as a distinct non-text
entry between the two text chunks, and reading the text stream yields "ab"
with the marker excluded; writing two adjacent text chunks coalesces them
into one raw entry. -/
theorem liststream_text_and_markers :
    ListStream.write (ListStream.write (ListStream.write [] [.bytes "a"])
        [.obj .bold]) [.bytes "b"] =
      [.bytes "a", .obj .bold, .bytes "b"] ∧
    FakeStreamFormatter.get_text_stream
      (ListStream.write (ListStream.write (ListStream.write [] [.bytes "a"])
        [.obj .bold]) [.bytes "b"]) = "ab" ∧
    ListStream.write (ListStream.write [] [.bytes "a"]) [.bytes "b"] = [.bytes "ab"] := by
  refine ⟨by decide, ?_, by decide⟩
  rfl

end Snakeoil

namespace Snakeoil

/-! ### Stable priority sort -/

lemma insertByPriority_perm {α : Type} (x : String × Val α) (l : List (String × Val α)) :
    (insertByPriority x l).Perm (x :: l) := by
  induction l with
  | nil => exact List.Perm.refl _
  | cons y ys ih =>
    by_cases h : y.2.priorityOf ≤ x.2.priorityOf
    · simp only [insertByPriority, if_pos h]
      exact List.Perm.trans (List.Perm.cons y ih) (List.Perm.swap x y ys)
    · simp only [insertByPriority, if_neg h]
      exact List.Perm.refl _

lemma sortFold_perm {α : Type} :
    ∀ (l acc : List (String × Val α)),
      (l.foldl (fun acc x => insertByPriority x acc) acc).Perm (acc ++ l) := by
  intro l
  induction l with
  | nil => intro acc; simp
  | cons x xs ih =>
    intro acc
    refine List.Perm.trans (ih (insertByPriority x acc)) ?_
    refine List.Perm.trans (List.Perm.append_right xs (insertByPriority_perm x acc)) ?_
    exact List.perm_middle.symm

lemma sortByPriority_perm {α : Type} (l : List (String × Val α)) :
    (sortByPriority l).Perm l := by
  simpa using sortFold_perm l []

lemma insertByPriority_pairwise {α : Type} (x : String × Val α)
    (l : List (String × Val α))
    (h : l.Pairwise (fun p q => p.2.priorityOf ≤ q.2.priorityOf)) :
    (insertByPriority x l).Pairwise (fun p q => p.2.priorityOf ≤ q.2.priorityOf) := by
  induction l with
  | nil => simp [insertByPriority]
  | cons y ys ih =>
    rcases List.pairwise_cons.mp h with ⟨hy, hys⟩
    by_cases hle : y.2.priorityOf ≤ x.2.priorityOf
    · simp only [insertByPriority, if_pos hle]
      refine List.pairwise_cons.mpr ⟨?_, ih hys⟩
      intro z hz
      rcases List.mem_cons.mp ((insertByPriority_perm x ys).mem_iff.mp hz) with rfl | hzys
      · exact hle
      · exact hy z hzys
    · simp only [insertByPriority, if_neg hle]
      have hxy : x.2.priorityOf ≤ y.2.priorityOf := (not_le.mp hle).le
      refine List.pairwise_cons.mpr ⟨?_, h⟩
      intro z hz
      rcases List.mem_cons.mp hz with rfl | hzys
      · exact hxy
      · exact le_trans hxy (hy z hzys)

lemma sortFold_pairwise {α : Type} :
    ∀ (l acc : List (String × Val α)),
      acc.Pairwise (fun p q => p.2.priorityOf ≤ q.2.priorityOf) →
      (l.foldl (fun acc x => insertByPriority x acc) acc).Pairwise
        (fun p q => p.2.priorityOf ≤ q.2.priorityOf) := by
  intro l
  induction l with
  | nil => intro acc h; simpa using h
  | cons x xs ih => intro acc h; exact ih _ (insertByPriority_pairwise x acc h)

lemma sortByPriority_pairwise {α : Type} (l : List (String × Val α)) :
    (sortByPriority l).Pairwise (fun p q => p.2.priorityOf ≤ q.2.priorityOf) :=
  sortFold_pairwise l [] List.Pairwise.nil

/-! ### Pass 1: delayed defaults -/

lemma eraseFold_sublist {α : Type} :
    ∀ (ts : List String) (ns : Ns α),
      (ts.foldl (fun n t => eraseAttr t n) ns).Sublist ns := by
  intro ts
  induction ts with
  | nil => intro ns; exact List.Sublist.refl ns
  | cons t ts ih =>
    intro ns
    exact (ih (eraseAttr t ns)).trans (List.filter_sublist ns)

lemma wipe_sublist {α : Type} (ts : List String) (a : String) (ns : Ns α) :
    (DelayedDefault.wipe ts a ns).Sublist ns :=
  (List.filter_sublist _).trans (eraseFold_sublist ts ns)

lemma runWipe_sublist {α : Type} (ns : Ns α) (p : String × Val α) :
    (runWipe ns p).Sublist ns := by
  rcases p with ⟨a, v⟩
  cases v with
  | plain x => exact List.Sublist.refl ns
  | delayedDefault ts q => exact wipe_sublist ts a ns
  | delayed i q => exact List.Sublist.refl ns

lemma runWipes_sublist {α : Type} :
    ∀ (l : List (String × Val α)) (ns : Ns α), (l.foldl runWipe ns).Sublist ns := by
  intro l
  induction l with
  | nil => intro ns; exact List.Sublist.refl ns
  | cons p rest ih => intro ns; exact (ih (runWipe ns p)).trans (runWipe_sublist ns p)

lemma not_mem_wipe_trigger {α : Type} (ts : List String) (a : String) (ns : Ns α)
    (w : Val α) : (a, w) ∉ DelayedDefault.wipe ts a ns := by
  intro h
  have h2 := List.mem_filter.mp h
  simp at h2

lemma runWipes_kills_trigger {α : Type} :
    ∀ (l : List (String × Val α)) (ns : Ns α) (a : String) (ts : List String) (q : Int),
      (a, Val.delayedDefault ts q) ∈ l → ∀ w, (a, w) ∉ l.foldl runWipe ns := by
  intro l
  induction l with
  | nil => intro ns a ts q h; simp at h
  | cons p rest ih =>
    intro ns a ts q hmem w hw
    simp only [List.foldl_cons] at hw
    rcases List.mem_cons.mp hmem with heq | hrest
    · have hw2 : (a, w) ∈ runWipe ns p := (runWipes_sublist rest (runWipe ns p)).subset hw
      rw [← heq] at hw2
      exact not_mem_wipe_trigger ts a ns w hw2
    · exact ih (runWipe ns p) a ts q hrest w hw

lemma pass1_no_delayedDefault {α : Type} (ns : Ns α) :
    ∀ p ∈ pass1 ns, (p : String × Val α).2.isDelayedDefault = false := by
  intro p hp
  rcases p with ⟨a, v⟩
  cases v with
  | plain x => rfl
  | delayed i q => rfl
  | delayedDefault ts q =>
    exfalso
    unfold pass1 at hp
    have hmem_ns : (a, Val.delayedDefault ts q) ∈ ns := (runWipes_sublist _ ns).subset hp
    have hmem_c : (a, Val.delayedDefault ts q) ∈ collectDelayedDefaults ns :=
      List.mem_filter.mpr ⟨hmem_ns, rfl⟩
    have hmem_s : (a, Val.delayedDefault ts q) ∈ sortByPriority (collectDelayedDefaults ns) :=
      (sortByPriority_perm _).mem_iff.mpr hmem_c
    exact runWipes_kills_trigger _ ns a ts q hmem_s _ hp

/-- C8: pass-1 delayed-default resolution is idempotent: pass 1 deletes the
triggering attribute of every collected delayed default, so a second run of
pass 1 collects nothing and leaves the result object unchanged. -/
theorem pass1_idempotent {α : Type} (ns : Ns α) : pass1 (pass1 ns) = pass1 ns := by
  have hc : collectDelayedDefaults (pass1 ns) = [] := by
    unfold collectDelayedDefaults
    rw [List.filter_eq_nil_iff]
    intro p hp
    simp [pass1_no_delayedDefault ns p hp]
  show (sortByPriority (collectDelayedDefaults (pass1 ns))).foldl runWipe (pass1 ns) = pass1 ns
  rw [hc]
  rfl

/-! ### Pass 2: priority ordering -/

/-- C3: pass 2 invokes delayed values in ascending priority order: the
invocation list `pass2order` (which the pass-2 loop walks front to back) is
pairwise sorted by priority, and two delayed values with priorities 1 and 2
under distinct attribute names occupy strictly ordered positions, the
priority-1 value first. -/
theorem pass2_ascending_priority {α : Type} :
    (∀ ns : Ns α,
      (pass2order ns).Pairwise (fun p q => p.2.priorityOf ≤ q.2.priorityOf)) ∧
    (∀ (ns : Ns α) (a b : String) (ia ib : Nat), a ≠ b →
      (a, Val.delayed ia 1) ∈ ns → (b, Val.delayed ib 2) ∈ ns →
      ∃ i j : Fin (pass2order ns).length, i < j ∧
        (pass2order ns).get i = (a, Val.delayed ia 1) ∧
        (pass2order ns).get j = (b, Val.delayed ib 2)) := by
  constructor
  · intro ns
    exact sortByPriority_pairwise _
  · intro ns a b ia ib hab ha hb
    have hpw : (pass2order ns).Pairwise (fun p q => p.2.priorityOf ≤ q.2.priorityOf) :=
      sortByPriority_pairwise _
    have ha2 : (a, Val.delayed ia 1) ∈ pass2order ns :=
      (sortByPriority_perm _).mem_iff.mpr (List.mem_filter.mpr ⟨ha, rfl⟩)
    have hb2 : (b, Val.delayed ib 2) ∈ pass2order ns :=
      (sortByPriority_perm _).mem_iff.mpr (List.mem_filter.mpr ⟨hb, rfl⟩)
    obtain ⟨i, hi⟩ := List.mem_iff_get.mp ha2
    obtain ⟨j, hj⟩ := List.mem_iff_get.mp hb2
    have hij : i ≠ j := by
      intro h
      rw [h, hj] at hi
      exact hab (congrArg Prod.fst hi).symm
    rcases lt_or_gt_of_ne hij with hlt | hgt
    · exact ⟨i, j, hlt, hi, hj⟩
    · exfalso
      have hle := List.pairwise_iff_get.mp hpw j i hgt
      rw [hi, hj] at hle
      simp [Val.priorityOf] at hle

/-- Witness for C3: on a result object holding priorities 2 then 1, the
priority-1 delayed value occupies the earlier invocation slot. -/
theorem pass2_ascending_priority_witness :
    ∃ i j : Fin (pass2order
        [("b", Val.delayed (α := Unit) 0 2), ("a", Val.delayed 1 1)]).length,
      i < j ∧
      (pass2order [("b", Val.delayed (α := Unit) 0 2), ("a", Val.delayed 1 1)]).get i =
        ("a", Val.delayed 1 1) ∧
      (pass2order [("b", Val.delayed (α := Unit) 0 2), ("a", Val.delayed 1 1)]).get j =
        ("b", Val.delayed 0 2) :=
  pass2_ascending_priority.2 _ "a" "b" 1 0 (by decide) (by decide) (by decide)

end Snakeoil

namespace Snakeoil

/-! ### Pass 2: error handling -/

lemma runDelayeds_first_failure {α : Type} (env : EnvT α) (prog : String)
    (ns1 : Ns α) (attr : String) (v : Val α) (rest : List (String × Val α))
    (e : PyErr) :
    ∀ (pre : List (String × Val α)) (ns0 : Ns α),
      runAllOk env pre ns0 = some ns1 →
      invokeDelayed env attr v ns1 = .error e →
      runDelayeds env prog (pre ++ (attr, v) :: rest) ns0 =
        failureOutcome attr prog e := by
  intro pre
  induction pre with
  | nil =>
    intro ns0 hpre hfail
    have hns : ns0 = ns1 := by simpa [runAllOk] using hpre
    subst hns
    simp [runDelayeds, hfail]
  | cons p pre ih =>
    intro ns0 hpre hfail
    rcases p with ⟨pa, pv⟩
    cases hinv : invokeDelayed env pa pv ns0 with
    | ok nsi =>
      have hpre2 : runAllOk env pre nsi = some ns1 := by
        simpa [runAllOk, hinv] using hpre
      have hstep : runDelayeds env prog (((pa, pv) :: pre) ++ (attr, v) :: rest) ns0 =
          runDelayeds env prog (pre ++ (attr, v) :: rest) nsi := by
        simp [runDelayeds, hinv]
      rw [hstep]
      exact ih nsi hpre2 hfail
    | error e2 =>
      exfalso
      simp [runAllOk, hinv] at hpre

/-- C4: if the first failing invocation in the pass-2 resolution loop raises
a ValueError or TypeError, `parse_args` re-raises it as a descriptive
TypeError naming the offending attribute; if it raises an
`argparse.ArgumentError`, the parser's standard error path prints
`prog: error: message` and terminates the process with the non-zero status 2
instead of propagating the exception to the caller. -/
theorem pass2_failure_reporting {α : Type} (env : EnvT α) (prog : String)
    (ns ns1 : Ns α) (pre rest : List (String × Val α)) (attr : String)
    (v : Val α) (e : PyErr)
    (horder : pass2order ns = pre ++ (attr, v) :: rest)
    (hpre : runAllOk env pre ns = some ns1)
    (hfail : invokeDelayed env attr v ns1 = .error e) :
    pass2 env prog ns = failureOutcome attr prog e := by
  unfold pass2
  rw [horder]
  exact runDelayeds_first_failure env prog ns1 attr v rest e pre ns hpre hfail

/-- Witness for C4: a single delayed value whose invocation raises
`ValueError "boom"` makes pass 2 re-raise a TypeError naming the attribute. -/
theorem pass2_failure_reporting_witness :
    pass2 (fun _ _ _ => .error (.valueError "boom")) "prog"
        [("x", Val.delayed (α := Unit) 0 0)] =
      Outcome.raised (.typeError
        ("failed loading/parsing " ++ sq ++ "x" ++ sq ++ ": boom")) := by
  have h := pass2_failure_reporting (α := Unit)
      (fun _ _ _ => .error (.valueError "boom")) "prog"
      [("x", Val.delayed 0 0)] [("x", Val.delayed 0 0)] [] [] "x"
      (Val.delayed 0 0) (.valueError "boom") (by decide) rfl rfl
  simpa [failureOutcome] using h

/-! ### No delayed values survive resolution -/

lemma hasDelayedAttr_wipe {α : Type} (ts : List String) (a : String) (ns : Ns α)
    (b : String) (h : hasDelayedAttr (DelayedDefault.wipe ts a ns) b) :
    hasDelayedAttr ns b ∧ b ≠ a := by
  obtain ⟨w, hw, hdel⟩ := h
  have h2 := List.mem_filter.mp hw
  refine ⟨⟨w, (eraseFold_sublist ts ns).subset h2.1, hdel⟩, ?_⟩
  simpa using h2.2

lemma invokeDelayed_conform {α : Type} {env : EnvT α} (hconf : ConformingEnv env)
    {attr : String} {v : Val α} {ns ns2 : Ns α}
    (hv : v.isDelayedValue = true)
    (hok : invokeDelayed env attr v ns = .ok ns2) :
    ∀ b, hasDelayedAttr ns2 b → hasDelayedAttr ns b ∧ b ≠ attr := by
  intro b hb
  cases v with
  | plain x => simp [Val.isDelayedValue] at hv
  | delayedDefault ts q =>
    have h2 : ns2 = DelayedDefault.wipe ts attr ns := by
      simpa [invokeDelayed] using hok.symm
    rw [h2] at hb
    exact hasDelayedAttr_wipe ts attr ns b hb
  | delayed i q =>
    exact hconf i ns attr ns2 (by simpa [invokeDelayed] using hok) b hb

lemma runDelayeds_resolves {α : Type} {env : EnvT α} (hconf : ConformingEnv env)
    (prog : String) :
    ∀ (l : List (String × Val α)) (ns ns2 : Ns α),
      (∀ p ∈ l, (p : String × Val α).2.isDelayedValue = true) →
      (∀ b, hasDelayedAttr ns b → ∃ w, (b, w) ∈ l) →
      runDelayeds env prog l ns = .ok ns2 →
      ∀ b, ¬ hasDelayedAttr ns2 b := by
  intro l
  induction l with
  | nil =>
    intro ns ns2 hall hcov hrun b hb
    have hns : ns2 = ns := by simpa [runDelayeds] using hrun.symm
    subst hns
    obtain ⟨w, hw⟩ := hcov b hb
    simp at hw
  | cons p rest ih =>
    intro ns ns2 hall hcov hrun b hb
    rcases p with ⟨attr, v⟩
    cases hinv : invokeDelayed env attr v ns with
    | ok nsi =>
      have hrun2 : runDelayeds env prog rest nsi = .ok ns2 := by
        simpa [runDelayeds, hinv] using hrun
      have hv : v.isDelayedValue = true := hall (attr, v) (List.mem_cons_self _ _)
      have hstep := invokeDelayed_conform hconf hv hinv
      refine ih nsi ns2 (fun q hq => hall q (List.mem_cons_of_mem _ hq)) ?_ hrun2 b hb
      intro c hc
      obtain ⟨hcns, hcne⟩ := hstep c hc
      obtain ⟨w, hw⟩ := hcov c hcns
      rcases List.mem_cons.mp hw with heq | hrest2
      · exact absurd (congrArg Prod.fst heq) (by simpa using hcne)
      · exact ⟨w, hrest2⟩
    | error e =>
      exfalso
      cases e <;> simp [runDelayeds, failureOutcome, hinv] at hrun

lemma pass2_resolves {α : Type} {env : EnvT α} (hconf : ConformingEnv env)
    (prog : String) (ns ns2 : Ns α) (h : pass2 env prog ns = .ok ns2) :
    ∀ b, ¬ hasDelayedAttr ns2 b := by
  refine runDelayeds_resolves hconf prog (pass2order ns) ns ns2 ?_ ?_ h
  · intro p hp
    have h2 : p ∈ ns.filter (fun p => p.2.isDelayedValue) :=
      (sortByPriority_perm _).mem_iff.mp hp
    exact (List.mem_filter.mp h2).2
  · intro b hb
    obtain ⟨w, hw, hdel⟩ := hb
    exact ⟨w, (sortByPriority_perm _).mem_iff.mpr (List.mem_filter.mpr ⟨hw, hdel⟩)⟩

lemma lookupAttr_mem {α : Type} {attr : String} {ns : Ns α} {v : Val α}
    (h : lookupAttr attr ns = some v) : (attr, v) ∈ ns := by
  unfold lookupAttr at h
  cases hf : ns.find? (fun p => p.1 = attr) with
  | none => rw [hf] at h; simp at h
  | some p =>
    rw [hf] at h
    simp at h
    have hmem := List.mem_of_find?_eq_some hf
    have hpred : p.1 = attr := by simpa using List.find?_some hf
    rcases p with ⟨a, w⟩
    rw [← hpred, ← h]
    exact hmem

lemma finalCheckStep_resolved {α : Type} {env : EnvT α} {fenv : α → Ns α → Ns α}
    (hfc : ConformingCheck fenv) {ns ns2 : Ns α}
    (hnd : ∀ b, ¬ hasDelayedAttr ns b)
    (h : finalCheckStep env fenv ns = .ok ns2) :
    ∀ b, ¬ hasDelayedAttr ns2 b := by
  intro b hb
  unfold finalCheckStep at h
  cases hl : lookupAttr "final_check" ns with
  | none =>
    rw [hl] at h
    simp at h
    rw [← h] at hb
    exact hnd b hb
  | some v =>
    cases v with
    | plain f =>
      rw [hl] at h
      simp at h
      rw [← h] at hb
      have h2 := hfc f _ b hb
      obtain ⟨w, hw, hdel⟩ := h2
      exact hnd b ⟨w, (List.filter_sublist ns).subset hw, hdel⟩
    | delayedDefault ts q =>
      exact hnd "final_check" ⟨_, lookupAttr_mem hl, rfl⟩
    | delayed i q =>
      exact hnd "final_check" ⟨_, lookupAttr_mem hl, rfl⟩

/-- C1: under the delayed-value lifecycle contract (each invokable resolves
its own attribute and introduces no new delayed values, and the final check
introduces none), every result object that the resolution protocol of
`parse_args` returns normally contains no unresolved delayed value of any
kind: the two passes consume every collected delayed value. -/
theorem parse_args_no_delayed_left {α : Type} (env : EnvT α)
    (fenv : α → Ns α → Ns α) (prog : String) (ns ns2 : Ns α)
    (hconf : ConformingEnv env) (hfc : ConformingCheck fenv)
    (hok : parse_args_resolve env fenv prog ns = .ok ns2) :
    ns2.all (fun p => !p.2.isDelayedValue) = true := by
  unfold parse_args_resolve at hok
  cases hp : pass2 env prog (pass1 ns) with
  | ok m =>
    rw [hp] at hok
    have hm := pass2_resolves hconf prog (pass1 ns) m hp
    have hns2 := finalCheckStep_resolved hfc hm hok
    rw [List.all_eq_true]
    intro p hp2
    cases hval : p.2.isDelayedValue with
    | false => simp [hval]
    | true =>
      exfalso
      exact hns2 p.1 ⟨p.2, by simpa using hp2, hval⟩
  | raised e => rw [hp] at hok; simp at hok
  | exited s m => rw [hp] at hok; simp at hok

/-- Witness for C1: a concrete conforming environment resolves the single
delayed attribute and the returned result object holds only plain values. -/
theorem parse_args_no_delayed_left_witness :
    ([("y", Val.plain ())] : Ns Unit).all (fun p => !p.2.isDelayedValue) = true := by
  refine parse_args_no_delayed_left
      (fun _ ns _ => .ok (ns.filter (fun p => !p.2.isDelayedValue)))
      (fun _ ns => ns) "prog" [("x", Val.delayed 0 1), ("y", Val.plain ())]
      [("y", Val.plain ())] ?_ ?_ ?_
  · intro i nsx attr nsy h b hb
    exfalso
    obtain ⟨w, hw, hdel⟩ := hb
    have h2 : nsy = nsx.filter (fun p => !p.2.isDelayedValue) := by
      simpa using h.symm
    rw [h2] at hw
    have h3 := List.mem_filter.mp hw
    rw [hdel] at h3
    simp at h3
  · intro f nsx b hb
    exact hb
  · rfl

end Snakeoil

namespace Snakeoil

/-! ### Default subcommand fallback -/

/-- C2: with a default subcommand configured, the fallback in
`_parse_known_args` hands the standard library parser the default subcommand
name prepended to the argument list left over by parent-parser-only parsing;
when parent parsing leaves namespace and arguments unchanged (e.g. no parent
parsers are configured), parsing `args` therefore produces exactly the same
result as parsing `d :: args`. -/
theorem default_subcommand_fallback {N : Type}
    (subs : List String) (d : String)
    (parents : List (List String → N → N × List String))
    (stdlibParse : List String → N → N × List String)
    (args : List String) (ns : N)
    (hskip : skipSubparserFallback (some d) subs args = false)
    (hd : subs.contains d = true) :
    (ArgumentParser.parse_known_args (some d) subs parents stdlibParse args ns =
      .ok (stdlibParse (d :: (foldParents parents ns args).2)
        (foldParents parents ns args).1)) ∧
    (foldParents parents ns args = (ns, args) →
      ArgumentParser.parse_known_args (some d) subs parents stdlibParse args ns =
        ArgumentParser.parse_known_args (some d) subs parents stdlibParse
          (d :: args) ns) := by
  have hmem : d ∈ subs := by simpa using hd
  have hskip2 : skipSubparserFallback (some d) subs (d :: args) = true := by
    simp [skipSubparserFallback, hmem]
  constructor
  · simp [ArgumentParser.parse_known_args, hskip, hmem]
  · intro hfold
    simp [ArgumentParser.parse_known_args, hskip, hskip2, hmem, hfold]

/-- Witness for C2: with default subcommand "build" and no parent parsers,
parsing `["--flag"]` equals parsing `["build", "--flag"]`. -/
theorem default_subcommand_fallback_witness :
    ArgumentParser.parse_known_args (some "build") ["build"] []
        (fun a (n : List String) => (n ++ a, [])) ["--flag"] [] =
      ArgumentParser.parse_known_args (some "build") ["build"] []
        (fun a (n : List String) => (n ++ a, [])) ["build", "--flag"] [] :=
  (default_subcommand_fallback ["build"] "build" []
    (fun a n => (n ++ a, [])) ["--flag"] [] (by decide) (by decide)).2 rfl

/-- C5 (amended): an unknown configured default subcommand raises a
`ValueError` to the caller when parsing is invoked and the fallback would be
used, before any parsing of the argument list takes place - the outcome is
the same for every parent list and every standard library parser, neither of
which is consulted - rather than being reported through the user-facing error
path. -/
theorem unknown_default_subparser_raises {N : Type}
    (subs : List String) (d : String) (args : List String)
    (hskip : skipSubparserFallback (some d) subs args = false)
    (hd : subs.contains d = false) :
    ∀ (parents : List (List String → N → N × List String))
      (stdlibParse : List String → N → N × List String) (ns : N),
      ArgumentParser.parse_known_args (some d) subs parents stdlibParse args ns =
        .error (unknownSubparserMsg d subs) := by
  intro parents stdlibParse ns
  have hmem : d ∉ subs := by simpa using hd
  simp [ArgumentParser.parse_known_args, hskip, hmem]

/-- Witness for C5: parsing with the unregistered default "nope" raises the
`ValueError` naming it. -/
theorem unknown_default_subparser_raises_witness :
    ArgumentParser.parse_known_args (some "nope") ["build"] []
        (fun a (n : List String) => (n ++ a, [])) ["--flag"] [] =
      .error (unknownSubparserMsg "nope" ["build"]) :=
  unknown_default_subparser_raises ["build"] "nope" ["--flag"]
    (by decide) (by decide) [] (fun a n => (n ++ a, [])) []

/-- Counterexample for C5 as stated: configuring an unknown default
subcommand does not raise at setup time - `add_subparsers` stores it and
returns normally (the source has no raising path there) - and the
`ValueError` appears only once parsing is invoked. -/
theorem unknown_default_subparser_setup_accepts :
    ArgumentParser.add_subparsers ⟨none, false⟩ (some "nope") =
      .ok ⟨some "nope", true⟩ ∧
    ArgumentParser.parse_known_args (some "nope") ["build"] []
        (fun a (n : List String) => (n ++ a, [])) ["--flag"] [] =
      .error (unknownSubparserMsg "nope" ["build"]) := by
  exact ⟨rfl, rfl⟩

end Snakeoil
